import Mathlib

set_option maxRecDepth 100000

/-!
Shallow embedding of the coinjoin secret contract
(`src/secret_contracts/coinjoin/src/lib.rs`) and verification of its
specification claims.

Bytes are modelled as `Nat` (values 0..255), byte arrays as `List Nat`,
and the 256-bit `U256` values as `Nat`.  The cryptographic primitives
(keccak256, ECDSA public-key recovery, ECDH key derivation, authenticated
symmetric decryption, key-pair construction) live outside this source file
(they come from `enigma_crypto` / `eng_wasm`), so they are abstracted as
fields of a `Crypto` structure over which all definitions are
parameterised.  Rust panics (slice out of range, `unwrap` on `Err`,
decryption failure) are modelled by `Option`: `none` means the invocation
panics and aborts.
-/

namespace Coinjoin

/-- The constants of the contract source. -/
def ENC_RECIPIENT_SIZE : Nat := 70
def PUB_KEY_SIZE : Nat := 64
def AMOUNT_SIZE : Nat := 32
def SIG_SIZE : Nat := 65
def SENDER_SIZE : Nat := 20

/-- Abstract cryptographic primitives used by the contract; all byte
strings are `List Nat`.  Fallible primitives return `Option`. -/
structure Crypto where
  /-- Computes `keccak256` of a byte string (32-byte output). -/
  keccak : List Nat → List Nat
  /-- Models `KeyPair::recover(message, signature)`: recovers the signer public
  key, failing on a malformed signature or out-of-range recovery id. -/
  recover : List Nat → List Nat → Option (List Nat)
  /-- Models `KeyPair::from_slice(key)`: builds a key pair from the stored
  symmetric key, failing on a malformed/wrong-length key. -/
  fromSlice : List Nat → Option (List Nat)
  /-- Models `keypair.derive_key(user_pubkey)`: ECDH shared-secret derivation,
  failing if the counterparty public key is not a valid point. -/
  deriveKey : List Nat → List Nat → Option (List Nat)
  /-- Models `decrypt(ciphertext, shared_key)`: authenticated symmetric
  decryption, failing on an authentication-tag mismatch. -/
  decrypt : List Nat → List Nat → Option (List Nat)
  /-- Models `keypair.get_pubkey()`. -/
  getPubkey : List Nat → List Nat

/-- The persisted key-value state: exactly the two entries
`mixer_eth_addr` (a hex string) and `encryption_key` (raw key bytes);
`none` models an absent key. -/
structure ContractState where
  mixerEthAddr : Option (List Char)
  encryptionKey : Option (List Nat)
deriving DecidableEq

/-- Models a Rust slice `a[start..stop]` followed by `copy_from_slice`: panics (`none`) if the
range is invalid for `a`, otherwise yields the `stop - start` bytes. -/
def sliceRange (a : List Nat) (start stop : Nat) : Option (List Nat) :=
  if start ≤ stop ∧ stop ≤ a.length then some ((a.drop start).take (stop - start))
  else none

/-- Big-endian fixed-width byte encoding of a natural number
(`to_be_bytes` / `H256::from(U256)`): `w` bytes, most significant first. -/
def beBytes (w n : Nat) : List Nat :=
  match w with
  | 0 => []
  | Nat.succ w' => n / 256 ^ w' % 256 :: beBytes w' n

/-- Models `mixer_eth_addr.to_hex()`: lowercase hex encoding of the 20 address
bytes, as stored by `construct`. -/
def hexOfBytes (a : List Nat) : List Char :=
  a.flatMap fun b => [Nat.digitChar (b / 16), Nat.digitChar (b % 16)]

/-- The 28-byte prefix pushed in `verify_signature`, copied from the
source: the UTF-8 bytes of `"\x19Ethereum Signed Message:\n32"`. -/
def ethMessageHeader : List Nat :=
  [25, 69, 116, 104, 101, 114, 101, 117, 109, 32, 83, 105, 103, 110, 101,
   100, 32, 77, 101, 115, 115, 97, 103, 101, 58, 10, 51, 50]

/-- The `message` vector built in `verify_signature`: for each field, the
8-byte big-endian `usize` encoding of the field type's fixed size is
pushed, then the field itself; fields in source order
(sender, amount as `H256`, enc_recipient, user_pubkey). -/
def signedMessage (sender : List Nat) (amount : Nat)
    (enc_recipient user_pubkey : List Nat) : List Nat :=
  beBytes 8 SENDER_SIZE ++ sender ++
  beBytes 8 AMOUNT_SIZE ++ beBytes 32 amount ++
  beBytes 8 ENC_RECIPIENT_SIZE ++ enc_recipient ++
  beBytes 8 PUB_KEY_SIZE ++ user_pubkey

/-- The `prefixed_message` vector of `verify_signature`: the fixed prefix
followed by the keccak256 hash of `signedMessage`. -/
def prefixedMessage (c : Crypto) (sender : List Nat) (amount : Nat)
    (enc_recipient user_pubkey : List Nat) : List Nat :=
  ethMessageHeader ++ c.keccak (signedMessage sender amount enc_recipient user_pubkey)

/-- Models `Contract::verify_signature`: recovers the signer public key from the
prefixed message (panicking on failure), then takes bytes 12..32 of its
keccak256 hash as the recovered address.  Returns the recovered address;
the caller compares it against the claimed sender only informationally. -/
def verify_signature (c : Crypto) (signature : List Nat) (sender : List Nat)
    (amount : Nat) (enc_recipient user_pubkey : List Nat) : Option (List Nat) :=
  match c.recover (prefixedMessage c sender amount enc_recipient user_pubkey) signature with
  | none => none
  | some sender_pubkey => sliceRange (c.keccak sender_pubkey) 12 32

/-- Observable cryptographic work: `decryptEv i` records that the
decryption primitive was invoked for entry `i`, `recoverEv i` that
signature recovery was invoked for entry `i`. -/
inductive Event where
  | decryptEv : Nat → Event
  | recoverEv : Nat → Event
deriving DecidableEq, Repr

/-- Entry `i` of the concatenated `enc_recipients` array. -/
def encAt (enc_recipients : List Nat) (i : Nat) : Option (List Nat) :=
  sliceRange enc_recipients (i * ENC_RECIPIENT_SIZE) ((i + 1) * ENC_RECIPIENT_SIZE)

/-- Entry `i` of the concatenated `pub_keys` array. -/
def pkAt (pub_keys : List Nat) (i : Nat) : Option (List Nat) :=
  sliceRange pub_keys (i * PUB_KEY_SIZE) ((i + 1) * PUB_KEY_SIZE)

/-- Entry `i` of the concatenated `senders` array. -/
def sndAt (senders : List Nat) (i : Nat) : Option (List Nat) :=
  sliceRange senders (i * SENDER_SIZE) ((i + 1) * SENDER_SIZE)

/-- Entry `i` of the concatenated `signatures` array. -/
def sigAt (signatures : List Nat) (i : Nat) : Option (List Nat) :=
  sliceRange signatures (i * SIG_SIZE) ((i + 1) * SIG_SIZE)

/-- The body of the `execute_deal` loop for index `i`, in source order:
slice `enc_recipients`, `pub_keys`, `senders`; derive the shared key
(`unwrap`); decrypt; take the leading 20 plaintext bytes; slice
`signatures`; recover the signer (informational).  Returns the events
emitted before the panic (if any) and the decrypted recipient. -/
def processEntry (c : Crypto) (keypair : List Nat) (amount : Nat)
    (pub_keys enc_recipients senders signatures : List Nat) (i : Nat) :
    List Event × Option (List Nat) :=
  match encAt enc_recipients i with
  | none => ([], none)
  | some enc_recipient =>
    match pkAt pub_keys i with
    | none => ([], none)
    | some user_pubkey =>
      match sndAt senders i with
      | none => ([], none)
      | some sender =>
        match c.deriveKey keypair user_pubkey with
        | none => ([], none)
        | some shared_key =>
          match c.decrypt enc_recipient shared_key with
          | none => ([Event.decryptEv i], none)
          | some plaintext =>
            match sliceRange plaintext 0 20 with
            | none => ([Event.decryptEv i], none)
            | some recipient =>
              match sigAt signatures i with
              | none => ([Event.decryptEv i], none)
              | some signature =>
                match verify_signature c signature sender amount enc_recipient user_pubkey with
                | none => ([Event.decryptEv i, Event.recoverEv i], none)
                | some _sig_sender =>
                  ([Event.decryptEv i, Event.recoverEv i], some recipient)

/-- The `execute_deal` loop from index `i` with `k` entries left:
processes entries in submission order, accumulating the decrypted
recipients; a panic at any entry aborts the whole run. -/
def runEntries (c : Crypto) (keypair : List Nat) (amount : Nat)
    (pub_keys enc_recipients senders signatures : List Nat) (i : Nat) :
    Nat → List Event × Option (List (List Nat))
  | 0 => ([], some [])
  | Nat.succ k =>
    match processEntry c keypair amount pub_keys enc_recipients senders signatures i with
    | (evs, none) => (evs, none)
    | (evs, some recipient) =>
      match runEntries c keypair amount pub_keys enc_recipients senders signatures (i + 1) k with
      | (evs2, none) => (evs ++ evs2, none)
      | (evs2, some rest) => (evs ++ evs2, some (recipient :: rest))

/-- Swap of positions `i` and `j` of a list exactly as the source does it:
`tmp := l[j]; l[j] := l[i]; l[i] := tmp`. -/
def swapList (l : List (List Nat)) (i j : Nat) : List (List Nat) :=
  (l.set j (l.getD i [])).set i (l.getD j [])

/-- The shuffle loop of `execute_deal`, counting `i` down from `len - 1`
to `0` and swapping position `i` with position `seed % (i + 1)`:
`mixAux seed k l` performs the steps for `i = k - 1, …, 0`. -/
def mixAux (seed : Nat) : Nat → List (List Nat) → List (List Nat)
  | 0, l => l
  | Nat.succ i, l => mixAux seed i (swapList l i (seed % (i + 1)))

/-- The whole shuffle pass over the recipient list. -/
def mix (seed : Nat) (l : List (List Nat)) : List (List Nat) :=
  mixAux seed l.length l

/-- Models `read_state!(ENCRYPTION_KEY).unwrap()` (`Contract::get_pkey`). -/
def get_pkey (st : ContractState) : Option (List Nat) :=
  st.encryptionKey

/-- Models `Contract::get_keypair`: read the key and `KeyPair::from_slice(..).unwrap()`. -/
def get_keypair (c : Crypto) (st : ContractState) : Option (List Nat) :=
  match get_pkey st with
  | none => none
  | some key => c.fromSlice key

/-- Models `read_state!(MIXER_ETH_ADDR).unwrap_or_default()`. -/
def get_mixer_eth_addr (st : ContractState) : List Char :=
  st.mixerEthAddr.getD []

/-- Models `construct`: hex-encodes and persists the mixer address, then
generates (`entropy` models the fresh random key) and persists the
encryption key.  The only state-writing entrypoint. -/
def construct (entropy : List Nat) (_st : ContractState) (mixer_eth_addr : List Nat) :
    ContractState :=
  { mixerEthAddr := some (hexOfBytes mixer_eth_addr),
    encryptionKey := some entropy }

/-- Models `get_pub_key`: reads the key, rebuilds the key pair, and returns its
public key; the state is only read. -/
def get_pub_key (c : Crypto) (st : ContractState) :
    Option (List Nat × ContractState) :=
  match get_pkey st with
  | none => none
  | some _key =>
    match get_keypair c st with
    | none => none
    | some keypair => some (c.getPubkey keypair, st)

/-- Models `execute_deal`: rebuild the key pair, loop over the first
`nb_recipients.low_u64()` entries, shuffle with the constant seed `10`,
and return the shuffled list (also dispatched to the mixer contract,
which does not touch this state).  The returned state is the state after
the call; `none` models a panic of the whole invocation. -/
def execute_deal (c : Crypto) (st : ContractState) (_deal_id : Nat)
    (nb_recipients amount : Nat)
    (pub_keys enc_recipients senders signatures : List Nat) :
    List Event × Option (List (List Nat) × ContractState) :=
  match get_keypair c st with
  | none => ([], none)
  | some keypair =>
    let seed := 10
    let n := nb_recipients % 2 ^ 64
    match runEntries c keypair amount pub_keys enc_recipients senders signatures 0 n with
    | (evs, none) => (evs, none)
    | (evs, some recipients) => (evs, some (mix seed recipients, st))

/-- The address obtained by decrypting entry `i`, exactly as the loop
computes it: slice the ciphertext and counterparty public key, derive the
shared key, decrypt, and take the leading 20 plaintext bytes.  It depends
only on the stored key, `pub_keys` and `enc_recipients`. -/
def decryptedRecipient (c : Crypto) (keypair : List Nat)
    (pub_keys enc_recipients : List Nat) (i : Nat) : Option (List Nat) :=
  match encAt enc_recipients i with
  | none => none
  | some enc_recipient =>
    match pkAt pub_keys i with
    | none => none
    | some user_pubkey =>
      match c.deriveKey keypair user_pubkey with
      | none => none
      | some shared_key =>
        match c.decrypt enc_recipient shared_key with
        | none => none
        | some plaintext => sliceRange plaintext 0 20

/-- The signer address recovered for entry `i`, as computed (and then
only logged) by the loop. -/
def sigSenderAt (c : Crypto) (amount : Nat)
    (pub_keys enc_recipients senders signatures : List Nat) (i : Nat) :
    Option (List Nat) :=
  match encAt enc_recipients i with
  | none => none
  | some enc_recipient =>
    match pkAt pub_keys i with
    | none => none
    | some user_pubkey =>
      match sndAt senders i with
      | none => none
      | some sender =>
        match sigAt signatures i with
        | none => none
        | some signature =>
          verify_signature c signature sender amount enc_recipient user_pubkey

/-- Modelled from the spec's words (refinement reference for the canonical
signed message): the fields in the fixed order sender, amount as a 32-byte
big-endian encoding, enc_recipient, user_pubkey, each preceded by its
type's fixed size (20, 32, 70, 64) encoded as an 8-byte big-endian
integer. -/
def canonicalSignedMessageSpec (sender : List Nat) (amount : Nat)
    (enc_recipient user_pubkey : List Nat) : List Nat :=
  (beBytes 8 20 ++ sender) ++ (beBytes 8 32 ++ beBytes 32 amount) ++
  (beBytes 8 70 ++ enc_recipient) ++ (beBytes 8 64 ++ user_pubkey)

/-- Modelled from the spec's words (refinement reference for the shuffle):
a Fisher–Yates-style pass with the index running over the list from the
last position down to the first, swapping position `i` with position
`seed % (i + 1)`. -/
def shuffleSpec (seed : Nat) (l : List (List Nat)) : List (List Nat) :=
  (List.range l.length).reverse.foldl (fun acc i => swapList acc i (seed % (i + 1))) l

/-- A concrete instantiation of the abstract primitives, used to witness
the theorems on concrete inputs: keccak is a constant 32-byte string,
recovery always succeeds with a constant public key, key pairs and shared
keys are the identity, and decryption returns the ciphertext itself. -/
def cTest : Crypto where
  keccak := fun _ => List.replicate 32 7
  recover := fun _ _ => some (List.replicate 64 3)
  fromSlice := fun key => some key
  deriveKey := fun _ user_pubkey => some user_pubkey
  decrypt := fun enc_recipient _ => some enc_recipient
  getPubkey := fun keypair => keypair

/-- A variant of `cTest` whose recovery always fails, to witness the
hard-failure path. -/
def cFail : Crypto where
  keccak := fun _ => List.replicate 32 7
  recover := fun _ _ => none
  fromSlice := fun key => some key
  deriveKey := fun _ user_pubkey => some user_pubkey
  decrypt := fun enc_recipient _ => some enc_recipient
  getPubkey := fun keypair => keypair

/-- The stored symmetric key used by the concrete witnesses. -/
def keyTest : List Nat := List.replicate 32 1

/-- A constructed state for the concrete witnesses. -/
def stTest : ContractState where
  mixerEthAddr := some []
  encryptionKey := some keyTest

/-- A `pub_keys` array correctly sized for 2^64 recipients. -/
def bigPks : List Nat := List.replicate (2 ^ 64 * PUB_KEY_SIZE) 0

/-- An `enc_recipients` array correctly sized for 2^64 recipients. -/
def bigEncs : List Nat := List.replicate (2 ^ 64 * ENC_RECIPIENT_SIZE) 0

/-- A `senders` array correctly sized for 2^64 recipients. -/
def bigSnds : List Nat := List.replicate (2 ^ 64 * SENDER_SIZE) 0

/-- A `signatures` array correctly sized for 2^64 recipients. -/
def bigSigs : List Nat := List.replicate (2 ^ 64 * SIG_SIZE) 0

end Coinjoin

namespace Coinjoin

theorem beBytes_length (w n : Nat) : (beBytes w n).length = w := by
  induction w generalizing n with
  | zero => rfl
  | succ w ih => simp [beBytes, ih]

theorem ethMessageHeader_eq_utf8 :
    ethMessageHeader = ("\x19Ethereum Signed Message:\n32".data.map Char.toNat) := by
  decide

example : ethMessageHeader.length = 28 := by decide

theorem swapList_length (l : List (List Nat)) (i j : Nat) :
    (swapList l i j).length = l.length := by
  simp [swapList]

theorem cons_set_perm (a : List Nat) :
    ∀ (t : List (List Nat)) (i : Nat), i < t.length →
      (t.getD i [] :: t.set i a).Perm (a :: t) := by
  intro t
  induction t with
  | nil => intro i hi; simp at hi
  | cons b t ih =>
    intro i hi
    cases i with
    | zero => simpa using List.Perm.swap a b t
    | succ k =>
      have hk : k < t.length := by simpa using hi
      have h1 : (t.getD k [] :: b :: t.set k a).Perm (b :: t.getD k [] :: t.set k a) :=
        List.Perm.swap b (t.getD k []) (t.set k a)
      have h2 : (b :: t.getD k [] :: t.set k a).Perm (b :: a :: t) := (ih k hk).cons b
      have h3 : (b :: a :: t).Perm (a :: b :: t) := List.Perm.swap a b t
      simpa using h1.trans (h2.trans h3)

theorem swapList_perm :
    ∀ (l : List (List Nat)) (i j : Nat), j ≤ i → i < l.length →
      (swapList l i j).Perm l := by
  intro l
  induction l with
  | nil => intro i j _ hi; simp at hi
  | cons a t ih =>
    intro i j hj hi
    cases i with
    | zero =>
      have hj0 : j = 0 := Nat.le_zero.mp hj
      subst hj0
      simp [swapList]
    | succ i =>
      cases j with
      | zero =>
        have hit : i < t.length := by simpa using hi
        have : swapList (a :: t) (i + 1) 0 = t.getD i [] :: t.set i a := by
          simp [swapList]
        rw [this]
        exact cons_set_perm a t i hit
      | succ j =>
        have hit : i < t.length := by simpa using hi
        have : swapList (a :: t) (i + 1) (j + 1) = a :: swapList t i j := by
          simp [swapList]
        rw [this]
        exact (ih i j (Nat.le_of_succ_le_succ hj) hit).cons a

theorem mixAux_perm (seed : Nat) :
    ∀ (k : Nat) (l : List (List Nat)), k ≤ l.length →
      (mixAux seed k l).Perm l := by
  intro k
  induction k with
  | zero => intro l _; exact List.Perm.refl l
  | succ k ih =>
    intro l hk
    have hkl : k < l.length := hk
    have hswap : (swapList l k (seed % (k + 1))).Perm l :=
      swapList_perm l k (seed % (k + 1))
        (Nat.le_of_lt_succ (Nat.mod_lt seed (Nat.succ_pos k))) hkl
    have hlen : k ≤ (swapList l k (seed % (k + 1))).length := by
      rw [swapList_length]; exact Nat.le_of_lt hkl
    exact (ih (swapList l k (seed % (k + 1))) hlen).trans hswap

theorem mix_perm (seed : Nat) (l : List (List Nat)) : (mix seed l).Perm l :=
  mixAux_perm seed l.length l (Nat.le_refl _)

theorem mix_length (seed : Nat) (l : List (List Nat)) :
    (mix seed l).length = l.length :=
  (mix_perm seed l).length_eq

theorem mixAux_eq_foldl (seed : Nat) :
    ∀ (k : Nat) (l : List (List Nat)),
      mixAux seed k l =
        (List.range k).reverse.foldl (fun acc i => swapList acc i (seed % (i + 1))) l := by
  intro k
  induction k with
  | zero => intro l; rfl
  | succ k ih =>
    intro l
    rw [List.range_succ, List.reverse_append]
    simp only [List.reverse_cons, List.reverse_nil, List.nil_append, List.cons_append,
      List.foldl_cons]
    exact ih (swapList l k (seed % (k + 1)))

theorem processEntry_some (c : Crypto) (keypair : List Nat) (amount : Nat)
    (pub_keys enc_recipients senders signatures : List Nat) (i : Nat) (r : List Nat)
    (h : (processEntry c keypair amount pub_keys enc_recipients senders signatures i).2 = some r) :
    (processEntry c keypair amount pub_keys enc_recipients senders signatures i).1 =
      [Event.decryptEv i, Event.recoverEv i] ∧
    decryptedRecipient c keypair pub_keys enc_recipients i = some r ∧
    (sigSenderAt c amount pub_keys enc_recipients senders signatures i).isSome := by
  unfold processEntry at h ⊢
  unfold decryptedRecipient sigSenderAt
  repeat' split at h
  all_goals simp_all

theorem runEntries_some (c : Crypto) (keypair : List Nat) (amount : Nat)
    (pub_keys enc_recipients senders signatures : List Nat) :
    ∀ (k i : Nat) (l : List (List Nat)),
      (runEntries c keypair amount pub_keys enc_recipients senders signatures i k).2 = some l →
      l.length = k ∧
      ∀ t, t < k →
        (processEntry c keypair amount pub_keys enc_recipients senders signatures (i + t)).2
          = l[t]? := by
  intro k
  induction k with
  | zero =>
    intro i l h
    simp only [runEntries] at h
    obtain rfl : ([] : List (List Nat)) = l := Option.some.inj h
    exact ⟨rfl, fun t ht => absurd ht (Nat.not_lt_zero t)⟩
  | succ k ih =>
    intro i l h
    simp only [runEntries] at h
    rcases hP : processEntry c keypair amount pub_keys enc_recipients senders signatures i
      with ⟨evs, ro⟩
    rw [hP] at h
    cases ro with
    | none => simp at h
    | some r =>
      rcases hR : runEntries c keypair amount pub_keys enc_recipients senders signatures
          (i + 1) k with ⟨evs2, rest⟩
      rw [hR] at h
      cases rest with
      | none => simp at h
      | some rest =>
        obtain rfl : r :: rest = l := by simpa using h
        have hrest := ih (i + 1) rest (by rw [hR])
        refine ⟨by simpa using hrest.1, ?_⟩
        intro t ht
        cases t with
        | zero => simp [hP]
        | succ t =>
          have := hrest.2 t (Nat.lt_of_succ_lt_succ ht)
          simpa [Nat.add_assoc, Nat.add_comm 1 t] using this

theorem runEntries_isSome (c : Crypto) (keypair : List Nat) (amount : Nat)
    (pub_keys enc_recipients senders signatures : List Nat) :
    ∀ (k i : Nat),
      (∀ t, t < k →
        ((processEntry c keypair amount pub_keys enc_recipients senders signatures (i + t)).2).isSome) →
      ((runEntries c keypair amount pub_keys enc_recipients senders signatures i k).2).isSome := by
  intro k
  induction k with
  | zero => intro i _; simp [runEntries]
  | succ k ih =>
    intro i hok
    simp only [runEntries]
    rcases hP : processEntry c keypair amount pub_keys enc_recipients senders signatures i
      with ⟨evs, ro⟩
    cases ro with
    | none =>
      have := hok 0 (Nat.succ_pos k)
      rw [Nat.add_zero, hP] at this
      simp at this
    | some r =>
      rcases hR : runEntries c keypair amount pub_keys enc_recipients senders signatures
          (i + 1) k with ⟨evs2, rest⟩
      cases rest with
      | none =>
        have : ((runEntries c keypair amount pub_keys enc_recipients senders signatures
            (i + 1) k).2).isSome := by
          apply ih
          intro t ht
          have := hok (t + 1) (Nat.succ_lt_succ ht)
          simpa [Nat.add_assoc, Nat.add_comm 1 t] using this
        rw [hR] at this
        simp at this
      | some rest => simp

theorem runEntries_fail_events (c : Crypto) (keypair : List Nat) (amount : Nat)
    (pub_keys enc_recipients senders signatures : List Nat) :
    ∀ (f k i : Nat),
      (∀ t, t < f →
        ((processEntry c keypair amount pub_keys enc_recipients senders signatures (i + t)).2).isSome) →
      (processEntry c keypair amount pub_keys enc_recipients senders signatures (i + f)).2 = none →
      f < k →
      runEntries c keypair amount pub_keys enc_recipients senders signatures i k =
        ((List.range f).flatMap
            (fun t => (processEntry c keypair amount pub_keys enc_recipients senders signatures (i + t)).1)
          ++ (processEntry c keypair amount pub_keys enc_recipients senders signatures (i + f)).1,
         none) := by
  intro f
  induction f with
  | zero =>
    intro k i _ hfail hk
    cases k with
    | zero => exact absurd hk (Nat.lt_irrefl 0)
    | succ k =>
      simp only [runEntries]
      rcases hP : processEntry c keypair amount pub_keys enc_recipients senders signatures i
        with ⟨evs, ro⟩
      rw [Nat.add_zero, hP] at hfail
      cases ro with
      | none => simp [hP, Nat.add_zero]
      | some r => simp at hfail
  | succ f ih =>
    intro k i hok hfail hk
    cases k with
    | zero => exact absurd hk (Nat.not_lt_zero _)
    | succ k =>
      simp only [runEntries]
      rcases hP : processEntry c keypair amount pub_keys enc_recipients senders signatures i
        with ⟨evs, ro⟩
      cases ro with
      | none =>
        have h0 := hok 0 (Nat.succ_pos f)
        rw [Nat.add_zero, hP] at h0
        simp at h0
      | some r =>
        have hrec := ih k (i + 1)
          (fun t ht => by
            have := hok (t + 1) (Nat.succ_lt_succ ht)
            simpa [Nat.add_assoc, Nat.add_comm 1 t] using this)
          (by
            have harr : i + 1 + f = i + (f + 1) := by omega
            rw [harr]; exact hfail)
          (Nat.lt_of_succ_lt_succ hk)
        rw [hrec]
        have hev : (processEntry c keypair amount pub_keys enc_recipients senders signatures i).1
            = evs := congrArg Prod.fst hP
        simp only [List.range_succ_eq_map, List.flatMap_cons, List.flatMap_map, Nat.add_zero,
          List.append_assoc]
        refine congrArg (fun e => (e, none)) ?_
        rw [hev]
        have h1 : ∀ t : Nat, i + 1 + t = i + t.succ := fun t => by omega
        have h2 : i + 1 + f = i + (f + 1) := by omega
        rw [h2]
        refine congrArg
          (fun e => evs ++
            (e ++ (processEntry c keypair amount pub_keys enc_recipients senders signatures
              (i + (f + 1))).1)) ?_
        apply List.flatMap_congr
        intro t _
        rw [h1 t]

theorem execute_deal_run (c : Crypto) (st : ContractState) (key keypair : List Nat)
    (d nb amount : Nat) (pks encs snds sigs : List Nat)
    (hkey : st.encryptionKey = some key) (hkp : c.fromSlice key = some keypair) :
    execute_deal c st d nb amount pks encs snds sigs =
      (match runEntries c keypair amount pks encs snds sigs 0 (nb % 2 ^ 64) with
       | (evs, none) => (evs, none)
       | (evs, some recipients) => (evs, some (mix 10 recipients, st))) := by
  have hK : get_keypair c st = some keypair := by
    simp [get_keypair, get_pkey, hkey, hkp]
  unfold execute_deal
  rw [hK]

theorem sliceRange_isSome_iff (a : List Nat) (s t : Nat) :
    (sliceRange a s t).isSome ↔ (s ≤ t ∧ t ≤ a.length) := by
  unfold sliceRange
  split <;> simp_all

theorem sliceRange_length (a : List Nat) (s t : Nat) (b : List Nat)
    (h : sliceRange a s t = some b) : b.length = t - s := by
  unfold sliceRange at h
  split at h
  · obtain rfl : (a.drop s).take (t - s) = b := Option.some.inj h
    simp only [List.length_take, List.length_drop]
    omega
  · exact absurd h (by simp)

theorem runEntries_full (c : Crypto) (keypair : List Nat) (amount : Nat)
    (pks encs snds sigs : List Nat) (n : Nat)
    (hok : ∀ i, i < n → ((processEntry c keypair amount pks encs snds sigs i).2).isSome) :
    ∃ evs l, runEntries c keypair amount pks encs snds sigs 0 n = (evs, some l) ∧
      l.length = n ∧
      ∀ t, t < n → (processEntry c keypair amount pks encs snds sigs t).2 = l[t]? := by
  have h := runEntries_isSome c keypair amount pks encs snds sigs n 0
    (fun t ht => by simpa using hok t ht)
  rcases hR : runEntries c keypair amount pks encs snds sigs 0 n with ⟨evs, ro⟩
  rw [hR] at h
  cases ro with
  | none => simp at h
  | some l =>
    have h2 := runEntries_some c keypair amount pks encs snds sigs n 0 l (by rw [hR])
    exact ⟨evs, l, rfl, h2.1, fun t ht => by simpa using h2.2 t ht⟩

theorem decrypted_list_eq (c : Crypto) (keypair : List Nat) (pks encs : List Nat)
    (l : List (List Nat)) (n : Nat) (hlen : l.length = n)
    (h : ∀ t, t < n → decryptedRecipient c keypair pks encs t = l[t]?) :
    l = (List.range n).map fun i => (decryptedRecipient c keypair pks encs i).getD [] := by
  apply List.ext_getElem
  · simp [hlen]
  · intro i h1 h2
    have ht : i < n := by omega
    have hd := h i ht
    rw [List.getElem?_eq_getElem h1] at hd
    simp [hd]

theorem big_entries_valid :
    ∀ i, i < 2 ^ 64 →
      ((processEntry cTest keyTest 0 bigPks bigEncs bigSnds bigSigs i).2).isSome := by
  intro i hi
  have hmul : ∀ sz : Nat, (i + 1) * sz ≤ 2 ^ 64 * sz :=
    fun sz => Nat.mul_le_mul_right sz hi
  have hlow : ∀ sz : Nat, i * sz ≤ (i + 1) * sz :=
    fun sz => Nat.mul_le_mul_right sz (Nat.le_succ i)
  have hEs : (encAt bigEncs i).isSome := by
    rw [encAt, sliceRange_isSome_iff]
    exact ⟨hlow _, by simpa [bigEncs] using hmul ENC_RECIPIENT_SIZE⟩
  have hPs : (pkAt bigPks i).isSome := by
    rw [pkAt, sliceRange_isSome_iff]
    exact ⟨hlow _, by simpa [bigPks] using hmul PUB_KEY_SIZE⟩
  have hSs : (sndAt bigSnds i).isSome := by
    rw [sndAt, sliceRange_isSome_iff]
    exact ⟨hlow _, by simpa [bigSnds] using hmul SENDER_SIZE⟩
  have hGs : (sigAt bigSigs i).isSome := by
    rw [sigAt, sliceRange_isSome_iff]
    exact ⟨hlow _, by simpa [bigSigs] using hmul SIG_SIZE⟩
  obtain ⟨enc, hE⟩ := Option.isSome_iff_exists.mp hEs
  obtain ⟨pk, hP⟩ := Option.isSome_iff_exists.mp hPs
  obtain ⟨snd, hS⟩ := Option.isSome_iff_exists.mp hSs
  obtain ⟨sig, hG⟩ := Option.isSome_iff_exists.mp hGs
  have hEnclen : enc.length = ENC_RECIPIENT_SIZE := by
    have hsl := sliceRange_length bigEncs (i * ENC_RECIPIENT_SIZE) ((i + 1) * ENC_RECIPIENT_SIZE) enc hE
    have hdist : (i + 1) * ENC_RECIPIENT_SIZE = i * ENC_RECIPIENT_SIZE + ENC_RECIPIENT_SIZE := by
      ring
    rw [hsl, hdist]
    omega
  have hplain : (sliceRange enc 0 20).isSome := by
    rw [sliceRange_isSome_iff, hEnclen]
    exact ⟨by omega, by norm_num [ENC_RECIPIENT_SIZE]⟩
  obtain ⟨plain, hPl⟩ := Option.isSome_iff_exists.mp hplain
  have hver : verify_signature cTest sig snd 0 enc pk = some (List.replicate 20 7) := by
    unfold verify_signature
    simp [cTest, sliceRange]
  have hD : cTest.deriveKey keyTest pk = some pk := rfl
  have hDec : cTest.decrypt enc pk = some enc := rfl
  simp [processEntry, hE, hP, hS, hG, hD, hDec, hPl, hver]

/-- C2: the canonical signed message concatenates, in the fixed order
sender, amount (32-byte big-endian), enc_recipient, user_pubkey, each
field preceded by its type's fixed size (20, 32, 70, 64) as an 8-byte
big-endian integer; the keccak256 hash of that concatenation is prepended
with the fixed 28-byte prefix "\x19Ethereum Signed Message:\n32", and the
resulting byte string is exactly what signature recovery is performed
over. -/
theorem canonical_signed_message_format :
    (∀ sender amount enc_recipient user_pubkey,
      signedMessage sender amount enc_recipient user_pubkey =
        canonicalSignedMessageSpec sender amount enc_recipient user_pubkey)
    ∧ ethMessageHeader = "\x19Ethereum Signed Message:\n32".data.map Char.toNat
    ∧ ethMessageHeader.length = 28
    ∧ (∀ amount, (beBytes 32 amount).length = 32)
    ∧ (∀ c sender amount enc_recipient user_pubkey,
        prefixedMessage c sender amount enc_recipient user_pubkey =
          ethMessageHeader ++ c.keccak (signedMessage sender amount enc_recipient user_pubkey))
    ∧ (∀ c signature sender amount enc_recipient user_pubkey,
        verify_signature c signature sender amount enc_recipient user_pubkey =
          match c.recover (prefixedMessage c sender amount enc_recipient user_pubkey) signature with
          | none => none
          | some sender_pubkey => sliceRange (c.keccak sender_pubkey) 12 32) := by
  refine ⟨?_, by decide, by decide, fun amount => beBytes_length 32 amount,
    fun c s a e p => rfl, fun c g s a e p => rfl⟩
  intro s a e p
  simp [signedMessage, canonicalSignedMessageSpec, SENDER_SIZE, AMOUNT_SIZE,
    ENC_RECIPIENT_SIZE, PUB_KEY_SIZE]

/-- C4: the shuffle iterates the index from the last position of the
decrypted recipient list down to the first, at each step swapping position
`i` with position `seed % (i + 1)` for the fixed constant seed `10`, so the
resulting permutation of a fixed input list is uniquely determined; on a
3-element list the result is the specific rotation shown. -/
theorem shuffle_fisher_yates_deterministic :
    (∀ seed l, mix seed l = shuffleSpec seed l)
    ∧ mix 10 [List.replicate 20 1, List.replicate 20 2, List.replicate 20 3] =
        [List.replicate 20 3, List.replicate 20 1, List.replicate 20 2]
    ∧ execute_deal cTest stTest 0 3 0 (List.replicate 192 0)
        (List.replicate 70 1 ++ (List.replicate 70 2 ++ List.replicate 70 3))
        (List.replicate 60 0) (List.replicate 195 0) =
      ([Event.decryptEv 0, Event.recoverEv 0, Event.decryptEv 1, Event.recoverEv 1,
        Event.decryptEv 2, Event.recoverEv 2],
       some ([List.replicate 20 3, List.replicate 20 1, List.replicate 20 2], stTest)) := by
  refine ⟨?_, by decide, by decide⟩
  intro seed l
  show mixAux seed l.length l = shuffleSpec seed l
  rw [mixAux_eq_foldl]
  rfl

/-- C8: when `nb_recipients = 0` and construction has occurred,
`execute_deal` returns the empty sequence, leaves the state unchanged, and
performs no signature recovery and no decryption (the event trace is
empty), regardless of the contents of the four byte arrays. -/
theorem zero_recipients_empty (c : Crypto) (st : ContractState)
    (key keypair : List Nat) (deal_id amount : Nat)
    (pub_keys enc_recipients senders signatures : List Nat)
    (hkey : st.encryptionKey = some key) (hkp : c.fromSlice key = some keypair) :
    execute_deal c st deal_id 0 amount pub_keys enc_recipients senders signatures =
      ([], some ([], st)) := by
  rw [execute_deal_run c st key keypair deal_id 0 amount pub_keys enc_recipients senders
    signatures hkey hkp]
  simp [runEntries, mix, mixAux]

/-- C8 witness. -/
theorem zero_recipients_empty_witness :
    execute_deal cTest stTest 0 0 0 [1] [2] [3] [4] = ([], some ([], stTest)) :=
  zero_recipients_empty cTest stTest keyTest keyTest 0 0 [1] [2] [3] [4] rfl rfl

/-- C7: `execute_deal` and `get_pub_key` perform no writes to the
persisted state: whenever they complete, the state afterwards equals the
state before; `construct` is the only entrypoint that writes, setting the
`mixer_eth_addr` and `encryption_key` entries. -/
theorem no_state_writes_outside_construct :
    (∀ c st deal_id nb amount pks encs snds sigs out st',
      (execute_deal c st deal_id nb amount pks encs snds sigs).2 = some (out, st') →
        st' = st)
    ∧ (∀ c st pk st', get_pub_key c st = some (pk, st') → st' = st)
    ∧ (∀ entropy st mixer,
        (construct entropy st mixer).mixerEthAddr = some (hexOfBytes mixer) ∧
        (construct entropy st mixer).encryptionKey = some entropy) := by
  refine ⟨?_, ?_, fun entropy st mixer => ⟨rfl, rfl⟩⟩
  · intro c st deal_id nb amount pks encs snds sigs out st' h
    unfold execute_deal at h
    cases hK : get_keypair c st with
    | none => rw [hK] at h; simp at h
    | some keypair =>
      rw [hK] at h
      simp only at h
      rcases hR : runEntries c keypair amount pks encs snds sigs 0 (nb % 2 ^ 64)
        with ⟨evs, ro⟩
      rw [hR] at h
      cases ro with
      | none => simp at h
      | some recipients =>
        simp only at h
        exact (Prod.mk.inj (Option.some.inj h)).2.symm
  · intro c st pk st' h
    unfold get_pub_key at h
    cases hP : get_pkey st with
    | none => rw [hP] at h; simp at h
    | some key =>
      rw [hP] at h
      simp only at h
      cases hK : get_keypair c st with
      | none => rw [hK] at h; simp at h
      | some keypair =>
        rw [hK] at h
        simp only at h
        exact (Prod.mk.inj (Option.some.inj h)).2.symm

/-- C7 witness. -/
theorem no_state_writes_outside_construct_witness :
    stTest = stTest :=
  no_state_writes_outside_construct.1 cTest stTest 0 0 0 [] [] [] [] [] stTest
    (by decide)

/-- C10: `execute_deal` uses only the low 64 bits of `nb_recipients` as
its loop bound: whenever every reached entry succeeds, exactly
`nb_recipients % 2^64` entries are processed and returned; in particular
at `nb_recipients = 2^64` the returned list is empty, so its length
differs from `nb_recipients`. -/
theorem loop_bound_low64 :
    (∀ c st key keypair deal_id nb amount pks encs snds sigs,
      st.encryptionKey = some key → c.fromSlice key = some keypair →
      (∀ i, i < nb % 2 ^ 64 → ((processEntry c keypair amount pks encs snds sigs i).2).isSome) →
      ∃ evs out, execute_deal c st deal_id nb amount pks encs snds sigs =
          (evs, some (out, st)) ∧ out.length = nb % 2 ^ 64)
    ∧ execute_deal cTest stTest 0 (2 ^ 64) 0 bigPks bigEncs bigSnds bigSigs =
        ([], some ([], stTest))
    ∧ (0 : Nat) ≠ 2 ^ 64 := by
  refine ⟨?_, ?_, by positivity⟩
  · intro c st key keypair deal_id nb amount pks encs snds sigs hkey hkp hok
    obtain ⟨evs, l, hR, hlen, _⟩ :=
      runEntries_full c keypair amount pks encs snds sigs (nb % 2 ^ 64) hok
    refine ⟨evs, mix 10 l, ?_, ?_⟩
    · rw [execute_deal_run c st key keypair deal_id nb amount pks encs snds sigs hkey hkp, hR]
    · rw [mix_length, hlen]
  · have h := execute_deal_run cTest stTest keyTest keyTest 0 (2 ^ 64) 0
      bigPks bigEncs bigSnds bigSigs rfl rfl
    rw [Nat.mod_self] at h
    simpa [runEntries, mix, mixAux] using h

/-- C10 witness. -/
theorem loop_bound_low64_witness :
    ∃ evs out, execute_deal cTest stTest 0 3 0 (List.replicate 192 0) (List.replicate 210 0)
        (List.replicate 60 0) (List.replicate 195 0) = (evs, some (out, stTest)) ∧
      out.length = 3 % 2 ^ 64 :=
  loop_bound_low64.1 cTest stTest keyTest keyTest 0 3 0 (List.replicate 192 0)
    (List.replicate 210 0) (List.replicate 60 0) (List.replicate 195 0) rfl rfl (by decide)

/-- C3 counterexample: a fully valid batch (state initialized, every
array of length `nb_recipients` times its stride, every entry's signature
recoverable and ciphertext decryptable — see `big_entries_valid`) with
`nb_recipients = 2^64` makes `execute_deal` return the empty list, which
does not have `nb_recipients` elements. -/
theorem valid_batch_exact_count_counterexample :
    bigPks.length = 2 ^ 64 * PUB_KEY_SIZE ∧
    bigEncs.length = 2 ^ 64 * ENC_RECIPIENT_SIZE ∧
    bigSnds.length = 2 ^ 64 * SENDER_SIZE ∧
    bigSigs.length = 2 ^ 64 * SIG_SIZE ∧
    stTest.encryptionKey = some keyTest ∧
    execute_deal cTest stTest 0 (2 ^ 64) 0 bigPks bigEncs bigSnds bigSigs =
      ([], some ([], stTest)) ∧
    ([] : List (List Nat)).length ≠ 2 ^ 64 := by
  refine ⟨by simp [bigPks], by simp [bigEncs], by simp [bigSnds], by simp [bigSigs], rfl, ?_, ?_⟩
  · have h := execute_deal_run cTest stTest keyTest keyTest 0 (2 ^ 64) 0
      bigPks bigEncs bigSnds bigSigs rfl rfl
    rw [Nat.mod_self] at h
    simpa [runEntries, mix, mixAux] using h
  · simp

/-- C3 amended: for every valid batch whose `nb_recipients` fits in 64
bits (all four arrays of length `nb_recipients` times their stride, all
signatures recoverable, all ciphertexts decryptable, state initialized),
`execute_deal` returns a list of exactly `nb_recipients` addresses whose
multiset equals the multiset of addresses obtained by decrypting each
entry in submission order. -/
theorem valid_batch_exact_count_multiset (c : Crypto) (st : ContractState)
    (key keypair : List Nat) (deal_id nb amount : Nat)
    (pks encs snds sigs : List Nat)
    (hkey : st.encryptionKey = some key) (hkp : c.fromSlice key = some keypair)
    (hnb : nb < 2 ^ 64)
    (_hpks : pks.length = nb * PUB_KEY_SIZE)
    (_hencs : encs.length = nb * ENC_RECIPIENT_SIZE)
    (_hsnds : snds.length = nb * SENDER_SIZE)
    (_hsigs : sigs.length = nb * SIG_SIZE)
    (hok : ∀ i, i < nb → ((processEntry c keypair amount pks encs snds sigs i).2).isSome) :
    ∃ evs out, execute_deal c st deal_id nb amount pks encs snds sigs =
        (evs, some (out, st)) ∧
      out.length = nb ∧
      out.Perm ((List.range nb).map fun i =>
        (decryptedRecipient c keypair pks encs i).getD []) := by
  have hmod : nb % 2 ^ 64 = nb := Nat.mod_eq_of_lt hnb
  obtain ⟨evs, l, hR, hlen, helem⟩ :=
    runEntries_full c keypair amount pks encs snds sigs (nb % 2 ^ 64)
      (fun i hi => hok i (by omega))
  refine ⟨evs, mix 10 l, ?_, ?_, ?_⟩
  · rw [execute_deal_run c st key keypair deal_id nb amount pks encs snds sigs hkey hkp, hR]
  · rw [mix_length, hlen, hmod]
  · have hdl : ∀ t, t < nb → decryptedRecipient c keypair pks encs t = l[t]? := by
      intro t ht
      have hpe := helem t (by omega)
      have htl : t < l.length := by omega
      rw [List.getElem?_eq_getElem htl] at hpe ⊢
      exact (processEntry_some c keypair amount pks encs snds sigs t (l.get ⟨t, htl⟩) hpe).2.1
    have hl : l = (List.range nb).map fun i =>
        (decryptedRecipient c keypair pks encs i).getD [] :=
      decrypted_list_eq c keypair pks encs l nb (by omega) hdl
    rw [← hl]
    exact mix_perm 10 l

/-- C3 witness. -/
theorem valid_batch_exact_count_multiset_witness :
    ∃ evs out, execute_deal cTest stTest 0 2 0 (List.replicate 128 0) (List.replicate 140 0)
        (List.replicate 40 0) (List.replicate 130 0) = (evs, some (out, stTest)) ∧
      out.length = 2 ∧
      out.Perm ((List.range 2).map fun i =>
        (decryptedRecipient cTest keyTest (List.replicate 128 0) (List.replicate 140 0) i).getD []) :=
  valid_batch_exact_count_multiset cTest stTest keyTest keyTest 0 2 0
    (List.replicate 128 0) (List.replicate 140 0) (List.replicate 40 0) (List.replicate 130 0)
    rfl rfl (by decide) (by decide) (by decide) (by decide) (by decide) (by decide)

/-- C1: a mismatch between the signer address recovered from an entry's
signature and the claimed sender for that entry does not abort the batch:
the recovered address is only computed and compared informationally, the
entry's decrypted recipient is still pushed onto the result list, and
processing continues, so `execute_deal` still returns the full list. -/
theorem signature_mismatch_not_fatal (c : Crypto) (st : ContractState)
    (key keypair : List Nat) (deal_id nb amount : Nat)
    (pks encs snds sigs : List Nat) (i0 : Nat) (a s : List Nat)
    (hkey : st.encryptionKey = some key) (hkp : c.fromSlice key = some keypair)
    (hok : ∀ i, i < nb % 2 ^ 64 →
      ((processEntry c keypair amount pks encs snds sigs i).2).isSome)
    (hi0 : i0 < nb % 2 ^ 64)
    (_hrecov : sigSenderAt c amount pks encs snds sigs i0 = some a)
    (_hclaim : sndAt snds i0 = some s)
    (_hne : a ≠ s) :
    ∃ evs out r, execute_deal c st deal_id nb amount pks encs snds sigs =
        (evs, some (out, st)) ∧
      out.length = nb % 2 ^ 64 ∧
      decryptedRecipient c keypair pks encs i0 = some r ∧ r ∈ out := by
  obtain ⟨evs, l, hR, hlen, helem⟩ :=
    runEntries_full c keypair amount pks encs snds sigs (nb % 2 ^ 64) hok
  have hp := helem i0 hi0
  have hi0l : i0 < l.length := by omega
  rw [List.getElem?_eq_getElem hi0l] at hp
  have hsome := processEntry_some c keypair amount pks encs snds sigs i0 (l.get ⟨i0, hi0l⟩) hp
  refine ⟨evs, mix 10 l, l.get ⟨i0, hi0l⟩, ?_, ?_, hsome.2.1, ?_⟩
  · rw [execute_deal_run c st key keypair deal_id nb amount pks encs snds sigs hkey hkp, hR]
  · rw [mix_length, hlen]
  · have hmem : l.get ⟨i0, hi0l⟩ ∈ l := l.get_mem i0 hi0l
    exact ((mix_perm 10 l).mem_iff).mpr hmem

/-- C1 witness: with the test primitives the recovered signer is the
constant address of 7s while the claimed sender is the address of 5s. -/
theorem signature_mismatch_not_fatal_witness :
    ∃ evs out r, execute_deal cTest stTest 0 1 0 (List.replicate 64 0) (List.replicate 70 0)
        (List.replicate 20 5) (List.replicate 65 0) = (evs, some (out, stTest)) ∧
      out.length = 1 % 2 ^ 64 ∧
      decryptedRecipient cTest keyTest (List.replicate 64 0) (List.replicate 70 0) 0
        = some r ∧ r ∈ out :=
  signature_mismatch_not_fatal cTest stTest keyTest keyTest 0 1 0
    (List.replicate 64 0) (List.replicate 70 0) (List.replicate 20 5) (List.replicate 65 0)
    0 (List.replicate 20 7) (List.replicate 20 5)
    rfl rfl (by decide) (by decide) (by decide) (by decide) (by decide)

theorem runEntries_value_eq_map (c : Crypto) (keypair : List Nat) (amount : Nat)
    (pks encs snds sigs : List Nat) (n : Nat) (l : List (List Nat)) (evs : List Event)
    (hR : runEntries c keypair amount pks encs snds sigs 0 n = (evs, some l)) :
    l = (List.range n).map fun i => (decryptedRecipient c keypair pks encs i).getD [] := by
  obtain ⟨hlen, helem⟩ := runEntries_some c keypair amount pks encs snds sigs n 0 l (by rw [hR])
  apply decrypted_list_eq c keypair pks encs l n hlen
  intro t ht
  have hpe := helem t ht
  have htl : t < l.length := by omega
  rw [List.getElem?_eq_getElem htl]
  rw [List.getElem?_eq_getElem htl] at hpe
  have hze : (0 : Nat) + t = t := Nat.zero_add t
  rw [hze] at hpe
  exact (processEntry_some c keypair amount pks encs snds sigs t (l.get ⟨t, htl⟩) hpe).2.1

/-- C9: the recipient list returned by `execute_deal` does not depend on
the `senders` or `signatures` arrays: two invocations with identical
state, deal id, count, amount, public keys and ciphertexts but different
senders and/or signatures that both complete return the same list. -/
theorem recipients_independent_of_senders_and_signatures (c : Crypto) (st : ContractState)
    (deal_id nb amount : Nat) (pks encs snds1 sigs1 snds2 sigs2 : List Nat)
    (e1 e2 : List Event) (out1 out2 : List (List Nat)) (st1 st2 : ContractState)
    (h1 : execute_deal c st deal_id nb amount pks encs snds1 sigs1 = (e1, some (out1, st1)))
    (h2 : execute_deal c st deal_id nb amount pks encs snds2 sigs2 = (e2, some (out2, st2))) :
    out1 = out2 := by
  unfold execute_deal at h1 h2
  cases hK : get_keypair c st with
  | none =>
    rw [hK] at h1
    simp at h1
  | some keypair =>
    rw [hK] at h1 h2
    simp only at h1 h2
    rcases hR1 : runEntries c keypair amount pks encs snds1 sigs1 0 (nb % 2 ^ 64)
      with ⟨evs1, ro1⟩
    rcases hR2 : runEntries c keypair amount pks encs snds2 sigs2 0 (nb % 2 ^ 64)
      with ⟨evs2, ro2⟩
    rw [hR1] at h1
    rw [hR2] at h2
    cases ro1 with
    | none => simp at h1
    | some l1 =>
      cases ro2 with
      | none => simp at h2
      | some l2 =>
        simp only [Prod.mk.injEq, Option.some.injEq] at h1 h2
        have hl1 := runEntries_value_eq_map c keypair amount pks encs snds1 sigs1
          (nb % 2 ^ 64) l1 evs1 hR1
        have hl2 := runEntries_value_eq_map c keypair amount pks encs snds2 sigs2
          (nb % 2 ^ 64) l2 evs2 hR2
        have hll : l1 = l2 := hl1.trans hl2.symm
        rw [← h1.2.1, ← h2.2.1, hll]

/-- C9 witness: two runs that differ in senders and signatures return the
same recipient list. -/
theorem recipients_independent_witness :
    ([List.replicate 20 0] : List (List Nat)) = [List.replicate 20 0] :=
  recipients_independent_of_senders_and_signatures cTest stTest 0 1 0
    (List.replicate 64 0) (List.replicate 70 0)
    (List.replicate 20 5) (List.replicate 65 0)
    (List.replicate 20 9) (List.replicate 65 1)
    [Event.decryptEv 0, Event.recoverEv 0] [Event.decryptEv 0, Event.recoverEv 0]
    [List.replicate 20 0] [List.replicate 20 0] stTest stTest
    (by decide) (by decide)

/-- C6: an entry whose 65-byte signature cannot be recovered over the
prefixed message hash makes `verify_signature` — and hence the enclosing
`execute_deal` invocation — fail hard (panic) rather than return an
address, and no recipient list is returned for the batch. -/
theorem unrecoverable_signature_aborts (c : Crypto) (st : ContractState)
    (key keypair : List Nat) (deal_id nb amount : Nat)
    (pks encs snds sigs : List Nat) (i0 : Nat) (enc pk s sig : List Nat)
    (hkey : st.encryptionKey = some key) (hkp : c.fromSlice key = some keypair)
    (hprior : ∀ t, t < i0 → ((processEntry c keypair amount pks encs snds sigs t).2).isSome)
    (hi0 : i0 < nb % 2 ^ 64)
    (henc : encAt encs i0 = some enc) (hpk : pkAt pks i0 = some pk)
    (hsnd : sndAt snds i0 = some s) (hsig : sigAt sigs i0 = some sig)
    (hrec : c.recover (prefixedMessage c s amount enc pk) sig = none) :
    verify_signature c sig s amount enc pk = none ∧
    (execute_deal c st deal_id nb amount pks encs snds sigs).2 = none := by
  have hv : verify_signature c sig s amount enc pk = none := by
    unfold verify_signature
    rw [hrec]
  refine ⟨hv, ?_⟩
  have hSigNone : sigSenderAt c amount pks encs snds sigs i0 = none := by
    unfold sigSenderAt
    rw [henc, hpk, hsnd, hsig]
    exact hv
  have hpnone : (processEntry c keypair amount pks encs snds sigs i0).2 = none := by
    cases hp : (processEntry c keypair amount pks encs snds sigs i0).2 with
    | none => rfl
    | some r =>
      have hs := (processEntry_some c keypair amount pks encs snds sigs i0 r hp).2.2
      rw [hSigNone] at hs
      simp at hs
  have hfail := runEntries_fail_events c keypair amount pks encs snds sigs i0 (nb % 2 ^ 64) 0
    (fun t ht => by simpa using hprior t ht) (by simpa using hpnone) hi0
  rw [execute_deal_run c st key keypair deal_id nb amount pks encs snds sigs hkey hkp, hfail]

/-- C6 witness. -/
theorem unrecoverable_signature_aborts_witness :
    verify_signature cFail (List.replicate 65 0) (List.replicate 20 0) 0
      (List.replicate 70 0) (List.replicate 64 0) = none ∧
    (execute_deal cFail stTest 0 1 0 (List.replicate 64 0) (List.replicate 70 0)
      (List.replicate 20 0) (List.replicate 65 0)).2 = none :=
  unrecoverable_signature_aborts cFail stTest keyTest keyTest 0 1 0
    (List.replicate 64 0) (List.replicate 70 0) (List.replicate 20 0) (List.replicate 65 0)
    0 (List.replicate 70 0) (List.replicate 64 0) (List.replicate 20 0) (List.replicate 65 0)
    rfl rfl (by decide) (by decide) (by decide) (by decide) (by decide) (by decide) rfl

/-- C5 counterexample: a malformed batch (`senders` has 40 bytes, not
`1 × 20`) is not rejected: the single entry is decrypted, its signature
recovered, and the deal completes normally — contradicting the claim that
no signature recovery or decryption is performed for any entry of a
malformed batch. -/
theorem malformed_batch_not_rejected_counterexample :
    (List.replicate 40 5 : List Nat).length ≠ 1 * SENDER_SIZE ∧
    execute_deal cTest stTest 0 1 0 (List.replicate 64 0) (List.replicate 70 0)
        (List.replicate 40 5) (List.replicate 65 0) =
      ([Event.decryptEv 0, Event.recoverEv 0], some ([List.replicate 20 0], stTest)) := by
  constructor
  · decide
  · decide

/-- C5 amended: `execute_deal` performs no up-front array-length
validation at all.  A batch is fully processed whenever every entry's
pipeline succeeds — in particular arrays longer than
`nb_recipients × stride` are accepted with the excess ignored — and when
some entry's slice (or other step) fails, the invocation panics at that
entry, with every earlier entry already fully processed (its signature
recovered and its ciphertext decrypted), not rejected up front. -/
theorem no_upfront_length_validation :
    (∀ c st key keypair deal_id nb amount pks encs snds sigs,
      st.encryptionKey = some key → c.fromSlice key = some keypair →
      (∀ i, i < nb % 2 ^ 64 →
        ((processEntry c keypair amount pks encs snds sigs i).2).isSome) →
      ((execute_deal c st deal_id nb amount pks encs snds sigs).2).isSome)
    ∧ (∀ c st key keypair deal_id nb amount pks encs snds sigs f,
      st.encryptionKey = some key → c.fromSlice key = some keypair →
      f < nb % 2 ^ 64 →
      (∀ i, i < f → ((processEntry c keypair amount pks encs snds sigs i).2).isSome) →
      (processEntry c keypair amount pks encs snds sigs f).2 = none →
      (execute_deal c st deal_id nb amount pks encs snds sigs).2 = none ∧
      ∀ i, i < f →
        Event.recoverEv i ∈ (execute_deal c st deal_id nb amount pks encs snds sigs).1) := by
  constructor
  · intro c st key keypair deal_id nb amount pks encs snds sigs hkey hkp hok
    obtain ⟨evs, l, hR, _, _⟩ :=
      runEntries_full c keypair amount pks encs snds sigs (nb % 2 ^ 64) hok
    rw [execute_deal_run c st key keypair deal_id nb amount pks encs snds sigs hkey hkp, hR]
    simp
  · intro c st key keypair deal_id nb amount pks encs snds sigs f hkey hkp hf hok hfail
    have hfev := runEntries_fail_events c keypair amount pks encs snds sigs f (nb % 2 ^ 64) 0
      (fun t ht => by simpa using hok t ht) (by simpa using hfail) hf
    rw [execute_deal_run c st key keypair deal_id nb amount pks encs snds sigs hkey hkp, hfev]
    refine ⟨rfl, ?_⟩
    intro i hi
    have hsome := hok i hi
    obtain ⟨r, hr⟩ := Option.isSome_iff_exists.mp hsome
    have hev := (processEntry_some c keypair amount pks encs snds sigs i r hr).1
    simp only [List.mem_append]
    left
    apply List.mem_flatMap.mpr
    exact ⟨i, List.mem_range.mpr hi, by simp [hev]⟩

/-- C5 amended witness: an oversized `senders` array (45 bytes for one
entry) is accepted and the deal completes. -/
theorem no_upfront_length_validation_witness :
    ((execute_deal cTest stTest 0 1 0 (List.replicate 64 0) (List.replicate 70 0)
        (List.replicate 45 5) (List.replicate 65 0)).2).isSome :=
  no_upfront_length_validation.1 cTest stTest keyTest keyTest 0 1 0
    (List.replicate 64 0) (List.replicate 70 0) (List.replicate 45 5) (List.replicate 65 0)
    rfl rfl (by decide)

end Coinjoin
